import Mathlib

/-!
Shallow embedding of the image-purifier pipeline
(background_remover.py, watermark_remover.py, rmbg_remover.py, config.py).

Images are lists of rows of pixels; 8-bit channel arithmetic is modelled
over Nat with explicit mod 256 where numpy uint8 arithmetic wraps, and
real-valued ratios are modelled over the rationals.
-/

namespace ImagePurifier

/-- A 3-channel pixel in BGR channel order (the cv2 in-memory layout). -/
structure Pix3 where
  b : Nat
  g : Nat
  r : Nat
deriving DecidableEq

/-- A 4-channel BGRA pixel. -/
structure Pix4 where
  b : Nat
  g : Nat
  r : Nat
  a : Nat
deriving DecidableEq

/-- A 3-channel image: a list of rows of pixels. -/
abbrev Image3 := List (List Pix3)

/-- A 4-channel image. -/
abbrev Image4 := List (List Pix4)

/-- The input to remove_color_background: either a grayscale array
(2-dimensional, one Nat per pixel) or a 3-channel BGR image. -/
inductive InputImage where
  | gray (rows : List (List Nat))
  | color (rows : Image3)

/-- cv2.cvtColor(image, cv2.COLOR_GRAY2BGR): replicate the gray value
into all three channels. -/
def gray2bgr (rows : List (List Nat)) : Image3 :=
  rows.map (fun row => row.map (fun v => ⟨v, v, v⟩))

/-- The grayscale-upconversion step at the top of remove_color_background:
a 2-dimensional input is converted with COLOR_GRAY2BGR, a 3-channel input
is passed through. -/
def toBGR : InputImage → Image3
  | .gray rows => gray2bgr rows
  | .color rows => rows

/-- numpy uint8 subtraction of a scalar from a channel value: the result
wraps modulo 256 (there is no saturation). -/
def u8sub (a t : Nat) : Nat := (((a : Int) - (t : Int)) % 256).toNat

/-- numpy uint8 addition of a scalar to a channel value, wrapping modulo 256. -/
def u8add (a t : Nat) : Nat := (a + t) % 256

/-- np.clip(x, 0, 255) applied to an already-nonnegative value. -/
def clip255 (x : Nat) : Nat := min x 255

/-- config.py COLOR_TOLERANCE. -/
def COLOR_TOLERANCE : Nat := 30

/-- config.py BACKGROUND_COLORS: name to RGB triple. -/
def BACKGROUND_COLORS : List (String × (Nat × Nat × Nat)) :=
  [("white", (255, 255, 255)), ("green", (0, 255, 0)),
   ("blue", (0, 0, 255)), ("black", (0, 0, 0))]

/-- Per-channel lower bound of remove_color_background:
np.clip(target_color_bgr - tolerance, 0, 255), where the subtraction is
performed in uint8 and wraps before the clip. -/
def lowerBound (tol target : Nat) : Nat := clip255 (u8sub target tol)

/-- Per-channel upper bound of remove_color_background:
np.clip(target_color_bgr + tolerance, 0, 255), the addition performed in uint8. -/
def upperBound (tol target : Nat) : Nat := clip255 (u8add target tol)

/-- cv2.inRange on a single channel: the channel value lies between the
lower and the upper bound. -/
def inRange1 (tol target px : Nat) : Bool :=
  decide (lowerBound tol target ≤ px) && decide (px ≤ upperBound tol target)

/-- cv2.inRange on a BGR pixel: all three channels are inside their bounds;
such pixels get mask value 255 (background). -/
def bgMatch (tol : Nat) (target px : Pix3) : Bool :=
  inRange1 tol target.b px.b && inRange1 tol target.g px.g && inRange1 tol target.r px.r

/-- Sorting step of np.median: ascending sort of the samples. -/
def npSort (l : List Nat) : List Nat := l.insertionSort (· ≤ ·)

/-- np.median of a list of 8-bit values followed by astype(np.uint8):
for an odd count the middle element of the sorted list, for an even count
the mean of the two middle elements truncated to an integer. -/
def npMedian (l : List Nat) : Nat :=
  let s := npSort l
  let n := s.length
  if n % 2 = 1 then s.getD (n / 2) 0
  else (s.getD (n / 2 - 1) 0 + s.getD (n / 2) 0) / 2

/-- The edge samples of _detect_background_color: top row, bottom row,
left column, right column (corner pixels are sampled twice, as in the source). -/
def edgeSamples (img : Image3) : List Pix3 :=
  img.headD [] ++ img.getLastD [] ++
    img.map (fun row => row.headD ⟨0, 0, 0⟩) ++
    img.map (fun row => row.getLastD ⟨0, 0, 0⟩)

/-- BackgroundRemover._detect_background_color: the per-channel median of
the edge samples, returned in BGR order. -/
def detect_background_color (img : Image3) : Pix3 :=
  ⟨npMedian ((edgeSamples img).map Pix3.b),
   npMedian ((edgeSamples img).map Pix3.g),
   npMedian ((edgeSamples img).map Pix3.r)⟩

/-- Target-colour resolution of remove_color_background: a custom colour
wins, then a recognised colour name, otherwise the auto-detected edge
colour (whose BGR components are packed into the triple in field order). -/
def resolveTarget (img : Image3) (colorName : Option String)
    (customColor : Option (Nat × Nat × Nat)) : Nat × Nat × Nat :=
  match customColor with
  | some c => c
  | none =>
    match colorName with
    | some n =>
      match BACKGROUND_COLORS.lookup n with
      | some c => c
      | none => ((detect_background_color img).b, (detect_background_color img).g,
                 (detect_background_color img).r)
    | none => ((detect_background_color img).b, (detect_background_color img).g,
               (detect_background_color img).r)

/-- The reversal target_color[::-1]: the resolved triple, read back to
front, as a BGR pixel. -/
def targetBGR (img : Image3) (colorName : Option String)
    (customColor : Option (Nat × Nat × Nat)) : Pix3 :=
  let t := resolveTarget img colorName customColor
  ⟨t.2.2, t.2.1, t.1⟩

/-- The alpha channel written by remove_color_background: the inverted
inRange mask, so a background-matching pixel gets 0 and every other pixel 255. -/
def alphaFor (tol : Nat) (target px : Pix3) : Nat :=
  if bgMatch tol target px then 0 else 255

/-- The BGRA assembly of remove_color_background: cv2.cvtColor to BGRA
copies the three colour channels, then the alpha plane is overwritten with
the inverted mask. -/
def applyMask (tol : Nat) (target : Pix3) (image : Image3) : Image4 :=
  image.map (fun row => row.map (fun px =>
    ⟨px.b, px.g, px.r, alphaFor tol target px⟩))

/-- BackgroundRemover.remove_color_background: upconvert grayscale, resolve
the target colour, reverse it (target_color[::-1]), build the inRange mask
with the wrapped-then-clipped bounds, and return the BGRA image whose alpha
channel is the inverted mask. -/
def remove_color_background (tol : Nat) (input : InputImage)
    (colorName : Option String) (customColor : Option (Nat × Nat × Nat)) : Image4 :=
  applyMask tol (targetBGR (toBGR input) colorName customColor) (toBGR input)

/-- Projection of a BGRA pixel back to its three colour channels. -/
def dropAlpha (p : Pix4) : Pix3 := ⟨p.b, p.g, p.r⟩

/-- The criterion in the specification's words: every per-channel absolute
difference between the pixel and the target is at most the tolerance.
This definition is modelled from the spec for comparison with bgMatch. -/
def specBackground (tol : Nat) (target px : Pix3) : Bool :=
  decide (((px.b : Int) - target.b).natAbs ≤ tol) &&
  decide (((px.g : Int) - target.g).natAbs ≤ tol) &&
  decide (((px.r : Int) - target.r).natAbs ≤ tol)

/-- An axis-aligned rectangle (x, y, w, h) as used for watermark regions.
Coordinates are integers, as in python. -/
structure Rect where
  x : Int
  y : Int
  w : Int
  h : Int
deriving DecidableEq

/-- The padded-and-truncated rectangle painted by inpaint_watermark for one
region: x = max(0, x - 5), y = max(0, y - 5), w = min(W - x, w + 2*5),
h = min(H - y, h + 2*5), with the new x and y used in the min. -/
def padRegion (W H : Int) (reg : Rect) : Rect :=
  let padding : Int := 5
  let x := max 0 (reg.x - padding)
  let y := max 0 (reg.y - padding)
  let w := min (W - x) (reg.w + 2 * padding)
  let h := min (H - y) (reg.h + 2 * padding)
  ⟨x, y, w, h⟩

/-- Membership of the cell at (row, col) in a rectangle, matching the numpy
slice mask[y:y+h, x:x+w] (empty when w or h is nonpositive). -/
def inRect (reg : Rect) (row col : Int) : Bool :=
  decide (reg.x ≤ col) && decide (col < reg.x + reg.w) &&
  decide (reg.y ≤ row) && decide (row < reg.y + reg.h)

/-- The inpainting mask of inpaint_watermark: start from the all-zero mask
and, for each region in order, set the padded-and-truncated rectangle to 255. -/
def buildMask (W H : Int) (regions : List Rect) : Int → Int → Nat :=
  regions.foldl
    (fun mask reg => fun row col =>
      if inRect (padRegion W H reg) row col then 255 else mask row col)
    (fun _ _ => 0)

/-- The rectangle described by the specification's words: expand the region
by 5 pixels on all four sides, then clamp to the image bounds. Modelled from
the spec for comparison with padRegion. -/
def specPaddedRect (W H : Int) (reg : Rect) : Rect :=
  let x := max 0 (reg.x - 5)
  let y := max 0 (reg.y - 5)
  let x2 := min W (reg.x + reg.w + 5)
  let y2 := min H (reg.y + reg.h + 5)
  ⟨x, y, x2 - x, y2 - y⟩

/-- Width of an image: the length of its first row (image.shape[1]). -/
def imgWidth (image : Image3) : Int := (image.headD []).length

/-- Height of an image: its number of rows (image.shape[0]). -/
def imgHeight (image : Image3) : Int := image.length

/-- WatermarkRemover.inpaint_watermark: on an empty region list return the
image unchanged; otherwise build the mask and hand image and mask to the
inpainting algorithm (cv2.inpaint with radius 3 and INPAINT_TELEA), which is
an opaque collaborator passed in as a function. -/
def inpaint_watermark (inpaintAlgo : Image3 → (Int → Int → Nat) → Image3)
    (image : Image3) (regions : List Rect) : Image3 :=
  if regions = [] then image
  else inpaintAlgo image (buildMask (imgWidth image) (imgHeight image) regions)

/-- WatermarkRemover.remove_bottom_region: keep the first
int(height * (1 - frac)) rows, where frac is the fraction of the height to
crop from the bottom (the python float arithmetic is modelled exactly over
the rationals; int() truncation of the nonnegative product is the floor). -/
def remove_bottom_region (image : Image3) (frac : ℚ) : Image3 :=
  let cropHeight : Int := ⌊(image.length : ℚ) * (1 - frac)⌋
  image.take cropHeight.toNat

/-- WatermarkRemover.smart_remove: detect regions (the detector is passed in
as a function), inpaint them when any were found, and in aggressive mode crop
the bottom 12 percent of the result. -/
def smart_remove (detect : Image3 → List Rect)
    (inpaintAlgo : Image3 → (Int → Int → Nat) → Image3)
    (image : Image3) (aggressive : Bool) : Image3 :=
  let regions := detect image
  let result := if regions = [] then image else inpaint_watermark inpaintAlgo image regions
  if aggressive then remove_bottom_region result (12 / 100) else result

/-- A bounding box (x, y, w, h) with nonnegative components, as returned by
cv2.boundingRect inside a band of interest. -/
structure BBox where
  x : Nat
  y : Nat
  w : Nat
  h : Nat
deriving DecidableEq

/-- A candidate band (x1, y1, x2, y2) of detect_watermark_region. -/
structure Band where
  x1 : Nat
  y1 : Nat
  x2 : Nat
  y2 : Nat
deriving DecidableEq

/-- The three fixed candidate bands of detect_watermark_region, in source
order: bottom-right, bottom-left, bottom-center. The float products
width*0.7, height*0.85, width*0.3, height*0.9 followed by int() are modelled
exactly as rational floors, which for nonnegative arguments are the natural
number divisions below. -/
def regions_to_check (W H : Nat) : List Band :=
  [⟨7 * W / 10, 85 * H / 100, W, H⟩,
   ⟨0, 85 * H / 100, 3 * W / 10, H⟩,
   ⟨3 * W / 10, 9 * H / 10, 7 * W / 10, H⟩]

/-- WatermarkRemover.detect_watermark_region: for each candidate band,
obtain the bounding boxes of the external contours of the Canny edge image
of the band (an opaque collaborator passed in as contourBoxes), keep the
text-shaped ones (w > 20, h > 5, w > 2*h) and translate them back to
full-image coordinates. -/
def detect_watermark_region (contourBoxes : Band → List BBox) (W H : Nat) : List BBox :=
  (regions_to_check W H).flatMap (fun band =>
    (contourBoxes band).filterMap (fun bb =>
      if bb.w > 20 ∧ bb.h > 5 ∧ bb.w > bb.h * 2 then
        some ⟨band.x1 + bb.x, band.y1 + bb.y, bb.w, bb.h⟩
      else none))

/-- The python environment remove_with_ai runs in: whether the module
rmbg_remover can be imported (torch and torchvision installed), whether
RMBGRemover._load_model succeeds (transformers installed and a valid
Hugging Face token available), and whether rembg can be imported. -/
structure PyEnv where
  rmbgImportable : Bool
  rmbgModelLoads : Bool
  rembgImportable : Bool
deriving DecidableEq

/-- Which strategy actually produced the output of remove_with_ai. -/
inductive AIOutcome where
  | rmbgModel
  | rembgModel
  | colorBased
deriving DecidableEq

/-- BackgroundRemover.remove_with_ai, modelling the control flow over the
environment: for method rmbg, a failing import of rmbg_remover is caught as
ImportError and falls through to rembg, but a failure inside
RMBGRemover._load_model (missing transformers, absent or invalid token) is
re-raised as a plain Exception which the except ImportError clause does not
catch, so it propagates to the caller. The rembg path falls back to
colour-based removal when rembg cannot be imported. -/
def remove_with_ai (env : PyEnv) (method : String) : Except String AIOutcome :=
  let rembgPath : Except String AIOutcome :=
    if env.rembgImportable then .ok .rembgModel else .ok .colorBased
  if method = "rmbg" then
    if env.rmbgImportable then
      if env.rmbgModelLoads then .ok .rmbgModel
      else .error "Failed to load RMBG-2.0 model"
    else rembgPath
  else rembgPath

/-- A concrete 3-by-3 image whose border pixels are all (5,6,7) with one
different interior pixel; used to instantiate the border-median theorem. -/
def testImg : Image3 :=
  [[⟨5, 6, 7⟩, ⟨5, 6, 7⟩, ⟨5, 6, 7⟩],
   [⟨5, 6, 7⟩, ⟨200, 1, 7⟩, ⟨5, 6, 7⟩],
   [⟨5, 6, 7⟩, ⟨5, 6, 7⟩, ⟨5, 6, 7⟩]]

theorem countP_lt_eq_gt (s : List Nat) (c : Nat) :
    s.countP (fun x => decide (x < c)) + s.countP (fun x => decide (x = c)) +
      s.countP (fun x => decide (c < x)) = s.length := by
  induction s with
  | nil => simp
  | cons a t ih =>
    simp only [List.countP_cons, List.length_cons]
    have hone : (if decide (a < c) = true then 1 else 0) +
        (if decide (a = c) = true then 1 else 0) +
        (if decide (c < a) = true then 1 else 0) = 1 := by
      rcases Nat.lt_trichotomy a c with h | h | h
      · have h1 : ¬ a = c := Nat.ne_of_lt h
        have h2 : ¬ c < a := Nat.lt_asymm h
        simp [h, h1, h2]
      · subst h
        simp
      · have h1 : ¬ a = c := fun he => Nat.lt_irrefl a (he ▸ h)
        have h2 : ¬ a < c := Nat.lt_asymm h
        simp [h, h1, h2]
    omega

theorem sorted_ge_of_countLt {s : List Nat} (hsort : s.Sorted (· ≤ ·)) (c : Nat)
    {i : Nat} (hi : i < s.length)
    (hcnt : s.countP (fun x => decide (x < c)) ≤ i) :
    c ≤ s[i] := by
  by_contra hlt
  push_neg at hlt
  have hall : ∀ a ∈ s.take (i + 1), (fun x => decide (x < c)) a = true := by
    intro a ha
    obtain ⟨j, hj, hja⟩ := List.getElem_of_mem ha
    have hji : j ≤ i := by
      have h2 := hj
      rw [List.length_take] at h2
      omega
    have hjs : j < s.length := by
      have h2 := hj
      rw [List.length_take] at h2
      omega
    rw [List.getElem_take] at hja
    have hrel := hsort.rel_get_of_le (a := ⟨j, hjs⟩) (b := ⟨i, hi⟩) hji
    simp only [List.get_eq_getElem] at hrel
    subst hja
    simp only [decide_eq_true_eq]
    exact lt_of_le_of_lt hrel hlt
  have htake : (s.take (i + 1)).countP (fun x => decide (x < c)) = i + 1 := by
    rw [List.countP_eq_length.mpr hall, List.length_take]
    omega
  have hge : i + 1 ≤ s.countP (fun x => decide (x < c)) := by
    conv_rhs => rw [← List.take_append_drop (i + 1) s]
    rw [List.countP_append, htake]
    omega
  omega

theorem sorted_le_of_countGt {s : List Nat} (hsort : s.Sorted (· ≤ ·)) (c : Nat)
    {i : Nat} (hi : i < s.length)
    (hcnt : i + s.countP (fun x => decide (c < x)) < s.length) :
    s[i] ≤ c := by
  by_contra hgt
  push_neg at hgt
  have hall : ∀ a ∈ s.drop i, (fun x => decide (c < x)) a = true := by
    intro a ha
    have hs2 : List.Sorted (· ≤ ·) (s[i] :: s.drop (i + 1)) := by
      rw [← List.drop_eq_getElem_cons hi]
      exact List.Pairwise.sublist (List.drop_sublist i s) hsort
    rw [List.drop_eq_getElem_cons hi] at ha
    rcases List.mem_cons.mp ha with h | h
    · subst h
      simpa using hgt
    · have hle := List.rel_of_sorted_cons hs2 a h
      simp only [decide_eq_true_eq]
      exact lt_of_lt_of_le hgt hle
  have hdrop : (s.drop i).countP (fun x => decide (c < x)) = s.length - i := by
    rw [List.countP_eq_length.mpr hall, List.length_drop]
  have hge : s.length - i ≤ s.countP (fun x => decide (c < x)) := by
    conv_rhs => rw [← List.take_append_drop i s]
    rw [List.countP_append, hdrop]
    omega
  omega

theorem median_core {s : List Nat} (hsort : s.Sorted (· ≤ ·)) (c : Nat)
    (hmaj : s.length < 2 * s.countP (fun x => decide (x = c))) :
    (if s.length % 2 = 1 then s.getD (s.length / 2) 0
     else (s.getD (s.length / 2 - 1) 0 + s.getD (s.length / 2) 0) / 2) = c := by
  have hpart := countP_lt_eq_gt s c
  have hn1 : 1 ≤ s.length := by omega
  by_cases hpar : s.length % 2 = 1
  · simp only [hpar, if_true]
    have hm : s.length / 2 < s.length := by omega
    have hgetd : s.getD (s.length / 2) 0 = s[s.length / 2] := by
      simp [List.getD_eq_getElem?_getD, List.getElem?_eq_getElem hm]
    rw [hgetd]
    have h1 := sorted_ge_of_countLt hsort c hm (by omega)
    have h2 := sorted_le_of_countGt hsort c hm (by omega)
    omega
  · simp only [hpar, if_false]
    have hm2 : s.length / 2 < s.length := by omega
    have hm1 : s.length / 2 - 1 < s.length := by omega
    have hgetd1 : s.getD (s.length / 2 - 1) 0 = s[s.length / 2 - 1] := by
      simp [List.getD_eq_getElem?_getD, List.getElem?_eq_getElem hm1]
    have hgetd2 : s.getD (s.length / 2) 0 = s[s.length / 2] := by
      simp [List.getD_eq_getElem?_getD, List.getElem?_eq_getElem hm2]
    rw [hgetd1, hgetd2]
    have h1 := sorted_ge_of_countLt hsort c hm1 (by omega)
    have h2 := sorted_le_of_countGt hsort c hm1 (by omega)
    have h3 := sorted_ge_of_countLt hsort c hm2 (by omega)
    have h4 := sorted_le_of_countGt hsort c hm2 (by omega)
    omega

theorem npMedian_of_majority (l : List Nat) (c : Nat)
    (hmaj : l.length < 2 * l.countP (fun x => decide (x = c))) :
    npMedian l = c := by
  have hperm : List.Perm (npSort l) l := List.perm_insertionSort _ l
  have hsort : (npSort l).Sorted (· ≤ ·) := List.sorted_insertionSort _ l
  have hlen : (npSort l).length = l.length := hperm.length_eq
  have hcntE : (npSort l).countP (fun x => decide (x = c)) =
      l.countP (fun x => decide (x = c)) := hperm.countP_eq _
  have := median_core hsort c (by omega)
  exact this

theorem buildMask_foldl (W H : Int) (regions : List Rect) (row col : Int) :
    buildMask W H regions row col =
      if regions.any (fun reg => inRect (padRegion W H reg) row col) then 255 else 0 := by
  suffices hgen : ∀ (m : Int → Int → Nat),
      (regions.foldl
        (fun mask reg => fun r c =>
          if inRect (padRegion W H reg) r c then 255 else mask r c) m) row col =
      if regions.any (fun reg => inRect (padRegion W H reg) row col) then 255
      else m row col by
    exact hgen _
  induction regions with
  | nil => intro m; simp
  | cons reg0 rest ih =>
    intro m
    simp only [List.foldl_cons, List.any_cons]
    rw [ih]
    by_cases h0 : inRect (padRegion W H reg0) row col <;>
      by_cases hrest : rest.any (fun reg => inRect (padRegion W H reg) row col) <;>
      simp [h0, hrest]

theorem inRect_padRegion_bounds {W H : Int} {reg : Rect} {row col : Int}
    (h : inRect (padRegion W H reg) row col = true) :
    0 ≤ col ∧ col < W ∧ 0 ≤ row ∧ row < H := by
  simp only [inRect, padRegion, Bool.and_eq_true, decide_eq_true_eq] at h
  obtain ⟨⟨⟨h1, h2⟩, h3⟩, h4⟩ := h
  constructor
  · calc (0 : Int) ≤ max 0 (reg.x - 5) := le_max_left _ _
      _ ≤ col := h1
  refine ⟨?_, ?_, ?_⟩
  · have hw : min (W - max 0 (reg.x - 5)) (reg.w + 2 * 5) ≤ W - max 0 (reg.x - 5) :=
      min_le_left _ _
    omega
  · calc (0 : Int) ≤ max 0 (reg.y - 5) := le_max_left _ _
      _ ≤ row := h3
  · have hh : min (H - max 0 (reg.y - 5)) (reg.h + 2 * 5) ≤ H - max 0 (reg.y - 5) :=
      min_le_left _ _
    omega

/-- C1. Claimed: remove_color_background marks a pixel as background exactly
when every per-channel absolute difference to the target colour is within the
tolerance (default 30), and alpha keeps exactly the non-background pixels.
The code computes np.clip(target - tolerance, 0, 255) in uint8, so for a
black target the lower bound wraps to 226 before the clip and no pixel can
match: on a 1-by-1 black image with target black, the pixel has zero
difference in every channel (the spec criterion holds) yet the produced
alpha is 255, i.e. the pixel is kept as foreground instead of removed. -/
theorem c1_black_background_kept :
    specBackground COLOR_TOLERANCE ⟨0, 0, 0⟩ ⟨0, 0, 0⟩ = true ∧
    remove_color_background COLOR_TOLERANCE (.color [[⟨0, 0, 0⟩]]) (some "black") none
      = [[⟨0, 0, 0, 255⟩]] := by decide

/-- C2. Claimed: when the rmbg strategy cannot run, whether from a missing
runtime dependency or a missing or invalid token, remove_with_ai never raises
and falls back to rembg and then to colour masking. Counterexample: with the
rmbg module importable but the model load failing (absent or invalid token),
the plain Exception raised by RMBGRemover._load_model is not an ImportError,
so remove_with_ai propagates it to the caller even though rembg is available. -/
theorem c2_token_failure_raises :
    remove_with_ai ⟨true, false, true⟩ "rmbg"
      = Except.error "Failed to load RMBG-2.0 model" := rfl

/-- C2 amended: remove_with_ai falls back without raising only when the rmbg
runtime dependency itself cannot be imported; in that case it uses rembg when
rembg is importable and otherwise colour-distance masking. -/
theorem c2_import_error_fallback (env : PyEnv) (h : env.rmbgImportable = false) :
    remove_with_ai env "rmbg" =
      (if env.rembgImportable then Except.ok AIOutcome.rembgModel
       else Except.ok AIOutcome.colorBased) := by
  simp [remove_with_ai, h]

theorem c2_import_error_fallback_witness :
    remove_with_ai ⟨false, false, true⟩ "rmbg" = Except.ok AIOutcome.rembgModel := by
  have h := c2_import_error_fallback ⟨false, false, true⟩ rfl
  simpa using h

/-- C3. Claimed: for tolerances t1 < t2 the background set under t1 is
contained in the background set under t2. The uint8 wraparound of the lower
bound breaks this: with target (40,40,40), the pixel (40,40,40) is marked
background (alpha 0) under tolerance 10, but under tolerance 50 the lower
bound wraps to 246 and the same pixel is not marked background (alpha 255). -/
theorem c3_monotonicity_violated :
    remove_color_background 10 (.color [[⟨40, 40, 40⟩]]) none (some (40, 40, 40))
      = [[⟨40, 40, 40, 0⟩]] ∧
    remove_color_background 50 (.color [[⟨40, 40, 40⟩]]) none (some (40, 40, 40))
      = [[⟨40, 40, 40, 255⟩]] := by decide

/-- C4. For 0 ≤ r < 1 remove_bottom_region keeps exactly the first
floor(H*(1-r)) rows of the input; for r = 15/100 on a 1000-row image the
result has 850 rows; and smart_remove in aggressive mode crops the bottom
12 percent of the region-removal result. -/
theorem c4_bottom_crop (image : Image3) (frac : ℚ) (h0 : 0 ≤ frac) (hlt : frac < 1)
    (image2 : Image3) (h2 : image2.length = 1000)
    (detect : Image3 → List Rect) (algo : Image3 → (Int → Int → Nat) → Image3)
    (img3 : Image3) :
    (remove_bottom_region image frac).length
        = (⌊(image.length : ℚ) * (1 - frac)⌋).toNat ∧
    remove_bottom_region image frac
        = image.take (⌊(image.length : ℚ) * (1 - frac)⌋).toNat ∧
    (remove_bottom_region image2 (15 / 100)).length = 850 ∧
    smart_remove detect algo img3 true
        = remove_bottom_region (smart_remove detect algo img3 false) (12 / 100) := by
  have hfloor : ∀ n : Nat, ⌊(n : ℚ) * (1 - frac)⌋ ≤ (n : Int) := by
    have hfrac1 : frac < 1 := hlt
    intro n
    have hle : ((n : ℚ)) * (1 - frac) ≤ (n : ℚ) := by
      have hf1 : (1 : ℚ) - frac ≤ 1 := by linarith
      have hpos : (0 : ℚ) ≤ (n : ℚ) := by positivity
      exact mul_le_of_le_one_right hpos hf1
    calc ⌊(n : ℚ) * (1 - frac)⌋ ≤ ⌊(n : ℚ)⌋ := Int.floor_le_floor hle
      _ = (n : Int) := Int.floor_natCast n
  refine ⟨?_, rfl, ?_, ?_⟩
  · simp only [remove_bottom_region, List.length_take]
    have := hfloor image.length
    omega
  · simp only [remove_bottom_region, h2, List.length_take]
    rw [show ((1000 : ℕ) : ℚ) * (1 - 15 / 100) = ((850 : ℤ) : ℚ) by norm_num,
      Int.floor_intCast]
    norm_num
    rfl
  · simp [smart_remove]

theorem c4_bottom_crop_witness :
    ((0 : ℚ) ≤ 15 / 100 ∧ (15 : ℚ) / 100 < 1 ∧
      (List.replicate 1000 ([] : List Pix3)).length = 1000) ∧
    ((remove_bottom_region [[⟨1, 2, 3⟩]] (15 / 100)).length
        = (⌊(([[⟨1, 2, 3⟩]] : Image3).length : ℚ) * (1 - 15 / 100)⌋).toNat ∧
      remove_bottom_region [[⟨1, 2, 3⟩]] (15 / 100)
        = ([[⟨1, 2, 3⟩]] : Image3).take
            (⌊(([[⟨1, 2, 3⟩]] : Image3).length : ℚ) * (1 - 15 / 100)⌋).toNat ∧
      (remove_bottom_region (List.replicate 1000 ([] : List Pix3)) (15 / 100)).length
        = 850 ∧
      smart_remove (fun _ => []) (fun img _ => img) [[⟨1, 2, 3⟩]] true
        = remove_bottom_region
            (smart_remove (fun _ => []) (fun img _ => img) [[⟨1, 2, 3⟩]] false)
            (12 / 100)) :=
  ⟨⟨by norm_num, by norm_num, by rw [List.length_replicate]⟩,
   c4_bottom_crop [[⟨1, 2, 3⟩]] (15 / 100) (by norm_num) (by norm_num)
     (List.replicate 1000 []) (by rw [List.length_replicate]) (fun _ => [])
     (fun img _ => img) [[⟨1, 2, 3⟩]]⟩

/-- C5. Claimed: a mask cell is 255 exactly when it lies in some region
rectangle expanded by 5 pixels on all four sides and clamped to the image.
Counterexample: for the region (0,0,10,10) in a 40-by-40 image the code
paints columns 0..19 (the left padding lost to the clamp at 0 is shifted to
the right, w = min(W - x, w + 10)), so the cell (row 0, col 17) is painted
although it lies outside the 5-padded clamped rectangle 0..14. -/
theorem c5_padding_shift_counterexample :
    buildMask 40 40 [⟨0, 0, 10, 10⟩] 0 17 = 255 ∧
    inRect (specPaddedRect 40 40 ⟨0, 0, 10, 10⟩) 0 17 = false := by decide

/-- C5 amended: a mask cell is 255 exactly when it lies in some region
rectangle with origin max(0, x-5), max(0, y-5) and extent
min(W - newx, w + 10), min(H - newy, h + 10) — as 5-pixel padding except
that padding lost to the clamp at the left or top edge widens the rectangle
on the opposite side — and every other cell is 0. -/
theorem c5_mask_characterization (W H : Int) (regions : List Rect) (row col : Int) :
    (buildMask W H regions row col = 255 ↔
      ∃ reg ∈ regions, inRect (padRegion W H reg) row col = true) ∧
    (buildMask W H regions row col = 255 ∨ buildMask W H regions row col = 0) := by
  rw [buildMask_foldl]
  by_cases hany : regions.any (fun reg => inRect (padRegion W H reg) row col) = true
  · rw [if_pos hany]
    refine ⟨iff_of_true rfl ?_, Or.inl rfl⟩
    simpa using List.any_eq_true.mp hany
  · rw [if_neg hany]
    refine ⟨iff_of_false (by omega) ?_, Or.inr rfl⟩
    intro hex
    exact hany (List.any_eq_true.mpr (by simpa using hex))

/-- C6. The inpainting mask construction only paints cells inside the image:
any cell whose mask value is nonzero has column in [0, W) and row in [0, H),
for every region list, including regions whose padding would overrun the
edges. -/
theorem c6_mask_stays_in_bounds (W H : Int) (regions : List Rect) (row col : Int)
    (h : buildMask W H regions row col ≠ 0) :
    0 ≤ col ∧ col < W ∧ 0 ≤ row ∧ row < H := by
  rw [buildMask_foldl] at h
  by_cases hany : regions.any (fun reg => inRect (padRegion W H reg) row col) = true
  · obtain ⟨reg, hmem, hin⟩ := List.any_eq_true.mp hany
    exact inRect_padRegion_bounds hin
  · rw [if_neg hany] at h
    exact absurd rfl h

theorem c6_mask_stays_in_bounds_witness :
    (0 : Int) ≤ 17 ∧ (17 : Int) < 40 ∧ (0 : Int) ≤ 0 ∧ (0 : Int) < 40 :=
  c6_mask_stays_in_bounds 40 40 [⟨0, 0, 10, 10⟩] 0 17 (by decide)

/-- C7. When a single colour C holds a strict per-channel majority among the
sampled border pixels (top row, bottom row, left column, right column, as
the code samples them), detect_background_color returns exactly C: the
per-channel median of a list whose majority in that channel is C's value is
that value. -/
theorem c7_border_median (img : Image3) (C : Pix3)
    (hmaj : (edgeSamples img).length <
        2 * (edgeSamples img).countP (fun p => decide (p.b = C.b)) ∧
      (edgeSamples img).length <
        2 * (edgeSamples img).countP (fun p => decide (p.g = C.g)) ∧
      (edgeSamples img).length <
        2 * (edgeSamples img).countP (fun p => decide (p.r = C.r))) :
    detect_background_color img = C := by
  obtain ⟨hb, hg, hr2⟩ := hmaj
  have hB : npMedian ((edgeSamples img).map Pix3.b) = C.b := by
    apply npMedian_of_majority
    rw [List.countP_map, List.length_map]
    exact hb
  have hG : npMedian ((edgeSamples img).map Pix3.g) = C.g := by
    apply npMedian_of_majority
    rw [List.countP_map, List.length_map]
    exact hg
  have hR : npMedian ((edgeSamples img).map Pix3.r) = C.r := by
    apply npMedian_of_majority
    rw [List.countP_map, List.length_map]
    exact hr2
  simp only [detect_background_color, hB, hG, hR]

theorem c7_border_median_witness : detect_background_color testImg = ⟨5, 6, 7⟩ :=
  c7_border_median testImg ⟨5, 6, 7⟩ (by decide)

/-- C8. inpaint_watermark with an empty region list returns the image
unchanged, for every inpainting collaborator and every image. -/
theorem c8_inpaint_empty_noop (inpaintAlgo : Image3 → (Int → Int → Nat) → Image3)
    (image : Image3) :
    inpaint_watermark inpaintAlgo image [] = image := by
  simp [inpaint_watermark]

/-- C9. Every region returned by detect_watermark_region has width over 20,
height over 5 and width over twice its height, and its origin, translated to
full-image coordinates, lies inside one of the three candidate bands
(bottom-right, bottom-left, bottom-center, with the band edges computed as
the code computes them, by integer truncation of 0.7W, 0.3W, 0.85H, 0.9H),
provided the contour bounding boxes lie inside their band of interest as
cv2.boundingRect guarantees. -/
theorem c9_detected_regions_shape_and_band (contourBoxes : Band → List BBox)
    (W H : Nat)
    (hcb : ∀ band ∈ regions_to_check W H, ∀ bb ∈ contourBoxes band,
      bb.x + bb.w ≤ band.x2 - band.x1 ∧ bb.y + bb.h ≤ band.y2 - band.y1)
    (reg : BBox) (hreg : reg ∈ detect_watermark_region contourBoxes W H) :
    (reg.w > 20 ∧ reg.h > 5 ∧ reg.w > 2 * reg.h) ∧
    ((7 * W / 10 ≤ reg.x ∧ reg.x ≤ W ∧ 85 * H / 100 ≤ reg.y ∧ reg.y ≤ H) ∨
     (reg.x ≤ 3 * W / 10 ∧ 85 * H / 100 ≤ reg.y ∧ reg.y ≤ H) ∨
     (3 * W / 10 ≤ reg.x ∧ reg.x ≤ 7 * W / 10 ∧ 9 * H / 10 ≤ reg.y ∧ reg.y ≤ H)) := by
  unfold detect_watermark_region at hreg
  obtain ⟨band, hband, hfm⟩ := List.mem_flatMap.mp hreg
  obtain ⟨bb, hbb, hsome⟩ := List.mem_filterMap.mp hfm
  by_cases hc : bb.w > 20 ∧ bb.h > 5 ∧ bb.w > bb.h * 2
  · rw [if_pos hc] at hsome
    obtain ⟨hc1, hc2, hc3⟩ := hc
    have hbounds := hcb band hband bb hbb
    have hregeq : reg = ⟨band.x1 + bb.x, band.y1 + bb.y, bb.w, bb.h⟩ :=
      (Option.some.inj hsome).symm
    subst hregeq
    simp only [regions_to_check, List.mem_cons, List.mem_singleton] at hband
    rcases hband with hb1 | hb1 | hb1 | hb1
    · subst hb1
      dsimp only at hbounds ⊢
      have hx1 : 7 * W / 10 ≤ W := by omega
      have hy1 : 85 * H / 100 ≤ H := by omega
      exact ⟨⟨hc1, hc2, by omega⟩, Or.inl (by omega)⟩
    · subst hb1
      dsimp only at hbounds ⊢
      have hy1 : 85 * H / 100 ≤ H := by omega
      exact ⟨⟨hc1, hc2, by omega⟩, Or.inr (Or.inl (by omega))⟩
    · subst hb1
      dsimp only at hbounds ⊢
      have hx1 : 3 * W / 10 ≤ 7 * W / 10 := by omega
      have hy1 : 9 * H / 10 ≤ H := by omega
      exact ⟨⟨hc1, hc2, by omega⟩, Or.inr (Or.inr (by omega))⟩
    · exact absurd hb1 (by simp)
  · rw [if_neg hc] at hsome
    exact absurd hsome (by simp)

theorem c9_detected_regions_witness :
    ((25 > 20 ∧ 6 > 5 ∧ 25 > 2 * 6) ∧
     ((7 * 100 / 10 ≤ 70 ∧ 70 ≤ 100 ∧ 85 * 100 / 100 ≤ 85 ∧ 85 ≤ 100) ∨
      (70 ≤ 3 * 100 / 10 ∧ 85 * 100 / 100 ≤ 85 ∧ 85 ≤ 100) ∨
      (3 * 100 / 10 ≤ 70 ∧ 70 ≤ 7 * 100 / 10 ∧ 9 * 100 / 10 ≤ 85 ∧ 85 ≤ 100))) :=
  c9_detected_regions_shape_and_band (fun _ => [⟨0, 0, 25, 6⟩]) 100 100
    (by decide) ⟨70, 85, 25, 6⟩ (by decide)

theorem applyMask_dropAlpha (tol : Nat) (target : Pix3) (image : Image3) :
    (applyMask tol target image).map (fun row => row.map dropAlpha) = image := by
  unfold applyMask
  rw [List.map_map]
  have hrow : ((fun row : List Pix4 => row.map dropAlpha) ∘
      fun row : List Pix3 => row.map fun px =>
        (⟨px.b, px.g, px.r, alphaFor tol target px⟩ : Pix4)) = id := by
    funext row
    simp only [Function.comp_apply, List.map_map, id]
    have hpx : (dropAlpha ∘ fun px : Pix3 =>
        (⟨px.b, px.g, px.r, alphaFor tol target px⟩ : Pix4)) = id := rfl
    rw [hpx, List.map_id]
  rw [hrow, List.map_id]

/-- C10. remove_color_background preserves the spatial dimensions and the
three colour channels of the (grayscale-upconverted) input exactly — mapping
the result back through the colour-channel projection recovers the input
image — and every alpha value it writes is either 0 or 255. -/
theorem c10_frame_effect (tol : Nat) (input : InputImage)
    (colorName : Option String) (customColor : Option (Nat × Nat × Nat)) :
    (remove_color_background tol input colorName customColor).map
        (fun row => row.map dropAlpha) = toBGR input ∧
    ∀ row ∈ remove_color_background tol input colorName customColor,
      ∀ p ∈ row, p.a = 0 ∨ p.a = 255 := by
  constructor
  · exact applyMask_dropAlpha tol _ (toBGR input)
  · intro row hrow p hp
    simp only [remove_color_background, applyMask, List.mem_map] at hrow
    obtain ⟨row0, _, rfl⟩ := hrow
    simp only [List.mem_map] at hp
    obtain ⟨px, _, rfl⟩ := hp
    simp only [alphaFor]
    by_cases hbg : bgMatch tol (targetBGR (toBGR input) colorName customColor) px = true
    · rw [if_pos hbg]
      exact Or.inl rfl
    · rw [if_neg hbg]
      exact Or.inr rfl

end ImagePurifier
